import Mathlib

/-!
Verification development for the text-to-GDSII symbol compiler
(`text_to_gds.py`).  The definitions below are shallow embeddings of the
functions of that program:

* `increment_gds_name`, `cell_name_value`, `nth_cell_name` model the
  stateful cell-name generator `next_cell_name`.  The alphabet
  `_GDS_NAME_CHARS` (digits `0`-`9` then letters `A`-`Z`) is modelled by
  alphabet positions `0`..`35`; position `i < 10` is the digit character
  `chr(48+i)` and position `10 <= i < 36` is the uppercase letter
  `chr(65+(i-10))`.  `GDS_NAME_CHARS` and `decodeName` recover the
  character-level view.  The generator keeps its state on the function
  object (`next_cell_name.value`), initialised once per process to `"A"`;
  each call first increments and then returns the new value, so the n-th
  returned name (0-indexed) is `cell_name_value (n+1)`.
* `py_zero_pad` models the Python format expression `f"{i:0{w}d}"`
  (decimal digits of `i`, most significant first, left-padded with zeros
  to width `w`); `py_zero_pad_str` is its character-level form.
* `build_digit_string_cells_map` models the dictionary builder of the
  same name: the missing-digit check followed by one composed cell per
  index in `range(10 ** length)`.  A cell is modelled by its list of
  placements (referenced glyph symbol plus 2D offset); the generated GDS
  cell names are not part of the cell model because no claim relates the
  dictionary contents to the names (the name sequence itself is modelled
  separately above).
* `row_to_cell_loop` models the `while len(s) > 0` loop of the local
  function `row_to_cell` inside `_stream_rows_to_writer`, with the state
  the loop mutates (`row_cell` placements, `xx`, the nonlocal
  `cell_count` and `digit_count`, and the shared `combined_usage_counts`
  mapping).  The loop is driven by explicit fuel; `RowErr.fuelExhausted`
  marks a run that does not finish within the given number of
  iterations, which models non-termination of the Python loop.  A
  missing glyph raises `ValueError(f"Missing glyph in font for
  character: {ch!r}")`; the error is modelled by `RowErr.missingGlyph`
  carrying exactly the data the exception message carries, namely the
  offending character.
* `stream_rows` models `_stream_rows_to_writer` (per-row compilation,
  the `rows_limit` early return and the EOF return), and `main_parts`
  models the part loop of `main()` (stream a part, write its artifact,
  continue until EOF; an error aborts the in-progress part before its
  artifact is written).  Geometry that no claim mentions (the vertical
  row offset, library units, progress printing) is omitted.  Coordinates
  use `ℚ` in place of Python floats; the claims under study are exact
  bookkeeping identities about these coordinates.
-/

/-- The ordered name alphabet `_GDS_NAME_CHARS`: digit characters then
uppercase letters, so the character at position `i` of this list is the
character that alphabet position `i` stands for. -/
def GDS_NAME_CHARS : List Char :=
  (List.range 10).map (fun i => Char.ofNat (48 + i)) ++
    (List.range 26).map (fun i => Char.ofNat (65 + i))

/-- The loop of `increment_gds_name` inside `next_cell_name`, acting on
the reversed list of alphabet positions.  The Python loop walks the name
from its last character: a character below the final alphabet position
(35, the letter `Z`) is incremented and the walk stops; a character at
position 35 overflows to `0` (position 0) and the walk continues; if
every character overflows, the letter `A` (position 10) is prepended,
because a GDS name must not start with a digit. -/
def increment_gds_rev : List Nat → List Nat
  | [] => [10]
  | c :: rest => if c < 35 then (c + 1) :: rest else 0 :: increment_gds_rev rest

/-- `increment_gds_name` on names written most significant position
first, as the Python code stores them. -/
def increment_gds_name (v : List Nat) : List Nat :=
  (increment_gds_rev v.reverse).reverse

/-- The value of `next_cell_name.value` after `n` calls: initialised to
`"A"` (position list `[10]`) and incremented once per call. -/
def cell_name_value : Nat → List Nat
  | 0 => [10]
  | n + 1 => increment_gds_name (cell_name_value n)

/-- The name returned by the `(n+1)`-st call of `next_cell_name`
(0-indexed): the call increments the stored value and returns it. -/
def nth_cell_name (n : Nat) : List Nat :=
  cell_name_value (n + 1)

/-- Character-level view of a name given as a list of alphabet
positions. -/
def decodeName (v : List Nat) : List Char :=
  v.map fun i => GDS_NAME_CHARS.getD i '?'

/-- Modelled from `main()`: `next_cell_name` keeps its state on the
function object, guarded by a `hasattr` check, so it is initialised once
per process and `main()` never resets it between parts.  The first
symbol of a part that starts after `priorCalls` earlier generator calls
therefore receives element `priorCalls` of the single global
sequence. -/
def part_first_name (priorCalls : Nat) : List Nat :=
  nth_cell_name priorCalls

/-- Number of `next_cell_name` calls one part of `main()` performs when
the `--merge` flag is off: one for the shared pixel cell, one per glyph
declared by the font, `10 ^ L` for the prebuilt digit-string cells of
length `L`, and one row cell per processed row. -/
def calls_per_part (numGlyphs L rowsDone : Nat) : Nat :=
  1 + numGlyphs + 10 ^ L + rowsDone

/-- Last element of a position list, with default `0`; proof-side
helper for stating that a name ends (in reversed form) with a
letter. -/
def last0 : List Nat → Nat
  | [] => 0
  | [c] => c
  | _ :: c :: rest => last0 (c :: rest)

/-- Numeric value of a reversed position list, little endian in base
36; proof-side measure for the name order. -/
def valLE : List Nat → Nat
  | [] => 0
  | c :: rest => c + 36 * valLE rest

/-- Well-formedness of a reversed name: nonempty, all positions in the
alphabet, and the leading character of the name (the last element of the
reversed list) a letter. -/
def WFrev (r : List Nat) : Prop :=
  r ≠ [] ∧ (∀ c ∈ r, c < 36) ∧ 10 ≤ last0 r

/-- The decimal digit characters, in order; the strings `"0123456789"`
used by the builder. -/
def DIGITS : List Char :=
  ['0', '1', '2', '3', '4', '5', '6', '7', '8', '9']

/-- The character for a decimal digit value. -/
def digitChar (d : Nat) : Char :=
  Char.ofNat (48 + d)

/-- Little-endian decimal digits of a natural number (empty for 0),
written with structural recursion on a fuel bound so that it reduces
inside the kernel; it agrees with `Nat.digits 10` (proved below). -/
def decDigitsAux : Nat → Nat → List Nat
  | _, 0 => []
  | 0, _ + 1 => []
  | fuel + 1, n + 1 => ((n + 1) % 10) :: decDigitsAux fuel ((n + 1) / 10)

/-- Little-endian decimal digits of `n` (empty for 0). -/
def decDigits (n : Nat) : List Nat :=
  decDigitsAux n n

/-- The Python format expression `f"{i:0{w}d}"`: the decimal digits of
`i` most significant first (`"0"` for `i = 0`), left-padded with zeros
to width `w`.  Note that for `w = 0` the result is still the one-digit
string `"0"`, never the empty string. -/
def py_zero_pad (w i : Nat) : List Nat :=
  let ds := (decDigits i).reverse
  let ds2 := if ds = [] then [0] else ds
  List.replicate (w - ds2.length) 0 ++ ds2

/-- Character-level form of `py_zero_pad`. -/
def py_zero_pad_str (w i : Nat) : List Char :=
  (py_zero_pad w i).map digitChar

/-- A placement inside a composed cell: a reference to a glyph symbol
together with a 2D offset, as added by `cell.add(gdstk.Reference(gcell,
origin=(xx, 0.0)))`. -/
structure Placement (A α : Type) where
  target : α
  origin : A × A
deriving DecidableEq

/-- The inner loop of `build_digit_string_cells_map`: place the glyph
cells of the characters of `s` left to right, `xx` advancing by
`advance_x` per character.  The glyph map lookup `glyph_cells[ch]` is
fallible in general, hence the `Option`; the builder only reaches it
after the digit check has passed. -/
def place_digits [CommSemiring A] (g : Char → Option α) (advance_x : A) :
    List Char → A → Option (List (Placement A α))
  | [], _ => some []
  | ch :: rest, xx =>
    match g ch with
    | none => none
    | some gcell =>
      match place_digits g advance_x rest (xx + advance_x) with
      | none => none
      | some ps => some ({ target := gcell, origin := (xx, 0) } :: ps)

/-- The `for i in range(max_value)` loop of
`build_digit_string_cells_map`, over an explicit index list: one entry
per index, keyed by the zero-padded digit string. -/
def build_entries [CommSemiring A] (g : Char → Option α) (advance_x : A)
    (len : Nat) :
    List Nat → Option (List (List Char × List (Placement A α)))
  | [] => some []
  | i :: rest =>
    match place_digits g advance_x (py_zero_pad_str len i) 0 with
    | none => none
    | some ps =>
      match build_entries g advance_x len rest with
      | none => none
      | some es => some ((py_zero_pad_str len i, ps) :: es)

/-- `build_digit_string_cells_map`: fail if any decimal digit is
missing from the glyph map, otherwise build one composed cell per
zero-padded digit string of the given length, keyed by that string.  The
mapping is modelled as the association list in insertion order; its keys
are pairwise distinct, so association-list lookup matches Python dict
lookup. -/
def build_digit_string_cells_map [CommSemiring A] (g : Char → Option α)
    (advance_x : A) (length : Nat) :
    Option (List (List Char × List (Placement A α))) :=
  if (DIGITS.filter fun d => (g d).isNone) ≠ [] then none
  else build_entries g advance_x length (List.range (10 ^ length))

/-- Python `dict.get` on the association-list model of a dict with
pairwise distinct keys. -/
def dict_get (k : List Char) : List (List Char × γ) → Option γ
  | [] => none
  | (k2, v) :: rest => if k = k2 then some v else dict_get k rest

/-- The lookup function of a built dictionary, as passed to the row
compiler (`combined_cells_map.get`). -/
def cmap_of (m : List (List Char × γ)) : List Char → Option γ :=
  fun k => dict_get k m

/-- A concrete glyph map for instantiations: the font declares exactly
the ten decimal digits and each digit character stands for its own glyph
symbol. -/
def digit_glyphs : Char → Option Char :=
  fun c => if c ∈ DIGITS then some c else none

/-- A reference placed into a row cell: either a single-character glyph
cell or a prebuilt combined digit-string cell. -/
inductive RowRef (α β : Type) where
  | glyph (g : α)
  | combined (c : β)
deriving DecidableEq

/-- A placement inside a row cell. -/
structure RowPlacement (A α β : Type) where
  target : RowRef α β
  origin : A × A
deriving DecidableEq

/-- Failure of the row loop: the `ValueError` raised for a character
with no glyph (the exception message carries the character and nothing
else), or exhaustion of the fuel bound, which models a Python loop
iteration that consumes no input. -/
inductive RowErr where
  | missingGlyph (ch : Char)
  | fuelExhausted
deriving DecidableEq

/-- The state mutated by the `row_to_cell` loop: the placements added
to the current row cell, the cursor `xx`, the nonlocal `cell_count` and
`digit_count` of the enclosing `_stream_rows_to_writer` call, and the
usage mapping `combined_usage_counts` shared across the whole run. -/
structure RowSt (A α β : Type) where
  placements : List (RowPlacement A α β)
  xx : A
  cell_count : Nat
  digit_count : Nat
  usage : List Char → Nat

/-- `combined_usage_counts[match_key] += 1` on the defaultdict model:
the count of the matched key grows by one, all other keys are
unchanged. -/
def bump (u : List Char → Nat) (k : List Char) : List Char → Nat :=
  fun k2 => if k2 = k then u k2 + 1 else u k2

/-- The `while len(s) > 0` loop of `row_to_cell`.  Each iteration takes
`match_key = s[:combined_string_length]` and looks it up in the
dictionary; on a hit it places the combined cell at `(xx, 0)`, counts
it, bumps the usage of the key, advances `xx` by
`advance_x * combined_string_length` and drops that many characters;
otherwise it consumes one character: a space only advances `xx`, any
other character is looked up in the glyph map and either placed at
`(xx, 0)` or reported missing. -/
def row_to_cell_loop [CommSemiring A] (gly : Char → Option α)
    (cmap : List Char → Option β) (L : Nat) (aX : A) :
    Nat → RowSt A α β → List Char → Except RowErr (RowSt A α β)
  | _, st, [] => .ok st
  | 0, _, _ :: _ => .error .fuelExhausted
  | fuel + 1, st, ch :: rest =>
    match cmap ((ch :: rest).take L) with
    | some match_cell =>
      row_to_cell_loop gly cmap L aX fuel
        { placements := st.placements ++ [⟨RowRef.combined match_cell, (st.xx, 0)⟩],
          xx := st.xx + aX * (L : A),
          cell_count := st.cell_count + 1,
          digit_count := st.digit_count + L,
          usage := bump st.usage ((ch :: rest).take L) }
        ((ch :: rest).drop L)
    | none =>
      if ch = ' ' then
        row_to_cell_loop gly cmap L aX fuel { st with xx := st.xx + aX } rest
      else
        match gly ch with
        | none => .error (.missingGlyph ch)
        | some gcell =>
          row_to_cell_loop gly cmap L aX fuel
            { placements := st.placements ++ [⟨RowRef.glyph gcell, (st.xx, 0)⟩],
              xx := st.xx + aX,
              cell_count := st.cell_count + 1,
              digit_count := st.digit_count + 1,
              usage := st.usage }
            rest

/-- `row_to_cell` on one row: fresh row cell and cursor, the carried
usage mapping and part counters passed in.  The fuel is the row length:
one iteration per remaining character suffices exactly when every
iteration consumes at least one character. -/
def row_to_cell [CommSemiring A] (gly : Char → Option α)
    (cmap : List Char → Option β) (L : Nat) (aX : A) (u : List Char → Nat)
    (cc dc : Nat) (s : List Char) : Except RowErr (RowSt A α β) :=
  row_to_cell_loop gly cmap L aX s.length
    { placements := [], xx := 0, cell_count := cc, digit_count := dc, usage := u } s

/-- The newline trim at the top of the row loop of
`_stream_rows_to_writer`: `if line.endswith("\n"): line = line[:-1]`. -/
def strip_trailing_newline (s : List Char) : List Char :=
  match s.getLast? with
  | some ch => if ch = '\n' then s.dropLast else s
  | none => s

/-- Result of streaming one part: the row cells built for this part (in
order, each given by its placements), the threaded usage mapping and
part counters, the number of rows done, the unread rest of the input,
and whether the input was exhausted. -/
structure StreamResult (A α β : Type) where
  arts : List (List (RowPlacement A α β))
  usage : List Char → Nat
  cell_count : Nat
  digit_count : Nat
  rows_done : Nat
  remaining : List (List Char)
  eof : Bool

/-- The `rows_limit is not None and row >= rows_limit` test. -/
def limit_reached (limit : Option Nat) (row : Nat) : Bool :=
  match limit with
  | none => false
  | some lim => lim ≤ row

/-- `_stream_rows_to_writer`: compile each input line into a row cell,
threading the usage mapping and the part counters; stop early when the
row limit of this part is reached (eof false), or at the end of input
(eof true).  A missing glyph aborts the part. -/
def stream_rows [CommSemiring A] (gly : Char → Option α)
    (cmap : List Char → Option β) (L : Nat) (aX : A) (limit : Option Nat) :
    List (List Char) → Nat → (List Char → Nat) → Nat → Nat →
    List (List (RowPlacement A α β)) → Except RowErr (StreamResult A α β)
  | [], row, u, cc, dc, arts => .ok ⟨arts, u, cc, dc, row, [], true⟩
  | line :: rest, row, u, cc, dc, arts =>
    match row_to_cell gly cmap L aX u cc dc (strip_trailing_newline line) with
    | .error e => .error e
    | .ok st =>
      if limit_reached limit (row + 1) then
        .ok ⟨arts ++ [st.placements], st.usage, st.cell_count, st.digit_count,
          row + 1, rest, false⟩
      else
        stream_rows gly cmap L aX limit rest (row + 1) st.usage st.cell_count
          st.digit_count (arts ++ [st.placements])

/-- The part loop of `main()` (with no overall `--rows` bound): per
part, stream up to `rows_per_file` rows with fresh part counters, then
write the artifact of the part; the usage mapping is threaded through
unchanged from part to part.  On an error the in-progress part is
aborted before its artifact is written and the parts already written are
returned with the error.  `fuel` bounds the number of parts; every run
needs at most one part per input line plus one. -/
def main_parts [CommSemiring A] (gly : Char → Option α)
    (cmap : List Char → Option β) (L : Nat) (aX : A)
    (rows_per_file : Option Nat) :
    Nat → List (List Char) → (List Char → Nat) →
    List (List (List (RowPlacement A α β))) →
    Except (RowErr × List (List (List (RowPlacement A α β))))
      (List (List (List (RowPlacement A α β))) × (List Char → Nat))
  | 0, _, _, parts => .error (.fuelExhausted, parts)
  | fuel + 1, lines, u, parts =>
    match stream_rows gly cmap L aX rows_per_file lines 0 u 0 0 [] with
    | .error e => .error (e, parts)
    | .ok res =>
      if res.eof then .ok (parts ++ [res.arts], res.usage)
      else main_parts gly cmap L aX rows_per_file fuel res.remaining res.usage
        (parts ++ [res.arts])

/-- The placements of the row cell built for one line, from a canonical
run with zero usage and fresh counters; the loop updates every state
component independently, so these placements are the ones any run
produces for the line. -/
def row_placements_of [CommSemiring A] (gly : Char → Option α)
    (cmap : List Char → Option β) (L : Nat) (aX : A) (line : List Char) :
    List (RowPlacement A α β) :=
  match row_to_cell gly cmap L aX (fun _ => 0) 0 0 (strip_trailing_newline line) with
  | .ok st => st.placements
  | .error _ => []

/-- The usage mapping after compiling one line (the counters do not
influence the usage updates). -/
def usage_after_row [CommSemiring A] (gly : Char → Option α)
    (cmap : List Char → Option β) (L : Nat) (aX : A) (u : List Char → Nat)
    (line : List Char) : List Char → Nat :=
  match row_to_cell gly cmap L aX u 0 0 (strip_trailing_newline line) with
  | .ok st => st.usage
  | .error _ => u

/-- The usage mapping after compiling a list of lines in order,
starting from `u`; the row-by-row reference the part loop is compared
against. -/
def usage_fold [CommSemiring A] (gly : Char → Option α)
    (cmap : List Char → Option β) (L : Nat) (aX : A) (u : List Char → Nat)
    (lines : List (List Char)) : List Char → Nat :=
  lines.foldl (usage_after_row gly cmap L aX) u

/-- Sum of the usage counts over all keys of the length-`L` dictionary
(every key the dictionary can ever match). -/
def usageSum (L : Nat) (u : List Char → Nat) : Nat :=
  Finset.sum (Finset.range (10 ^ L)) fun i => u (py_zero_pad_str L i)

/-- The error component of a part-loop result, when the run failed;
projection used to compare the errors of two failing runs. -/
def main_error : Except (RowErr × γ) δ → Option RowErr
  | .error (e, _) => some e
  | .ok _ => none

/-- Specification measure for the usage-accounting claim: the number of
input characters of a row that the loop consumes through dictionary
matches, following exactly the control flow of `row_to_cell_loop`. -/
def dict_matched_chars (cmap : List Char → Option β) (L : Nat) :
    Nat → List Char → Nat
  | _, [] => 0
  | 0, _ :: _ => 0
  | fuel + 1, ch :: rest =>
    match cmap ((ch :: rest).take L) with
    | some _ => L + dict_matched_chars cmap L fuel ((ch :: rest).drop L)
    | none => dict_matched_chars cmap L fuel rest

lemma increment_gds_rev_ne_nil (r : List Nat) : increment_gds_rev r ≠ [] := by
  cases r with
  | nil => simp [increment_gds_rev]
  | cons c rest =>
    by_cases h : c < 35 <;> simp [increment_gds_rev, h]

lemma valLE_lt_increment (r : List Nat) (h : ∀ c ∈ r, c < 36) :
    valLE r < valLE (increment_gds_rev r) := by
  induction r with
  | nil => simp [increment_gds_rev, valLE]
  | cons c rest ih =>
    by_cases hc : c < 35
    · simp only [increment_gds_rev, hc, if_true, valLE]
      omega
    · have hrec := ih (fun x hx => h x (List.mem_cons_of_mem _ hx))
      have hc36 : c < 36 := h c (List.mem_cons_self _ _)
      simp only [increment_gds_rev, hc, if_false, valLE]
      omega

lemma length_increment (r : List Nat) :
    (increment_gds_rev r).length = r.length ∨
      (increment_gds_rev r).length = r.length + 1 := by
  induction r with
  | nil => simp [increment_gds_rev]
  | cons c rest ih =>
    by_cases hc : c < 35
    · simp [increment_gds_rev, hc]
    · simp only [increment_gds_rev, hc, if_false, List.length_cons]
      omega

lemma last0_cons_cons (a b : Nat) (rest : List Nat) :
    last0 (a :: b :: rest) = last0 (b :: rest) := by
  simp [last0]

lemma last0_cons_of_ne_nil (a : Nat) (r : List Nat) (h : r ≠ []) :
    last0 (a :: r) = last0 r := by
  cases r with
  | nil => exact absurd rfl h
  | cons b rest => exact last0_cons_cons a b rest

lemma last0_mem (r : List Nat) (h : r ≠ []) : last0 r ∈ r := by
  induction r with
  | nil => exact absurd rfl h
  | cons c rest ih =>
    cases rest with
    | nil => simp [last0]
    | cons b rest2 =>
      rw [last0_cons_cons]
      exact List.mem_cons_of_mem _ (ih (by simp))

lemma WFrev_increment (r : List Nat) (h : WFrev r) : WFrev (increment_gds_rev r) := by
  obtain ⟨hne, h36, hlast⟩ := h
  refine ⟨increment_gds_rev_ne_nil r, ?_, ?_⟩
  · intro c hc
    induction r with
    | nil =>
      simp only [increment_gds_rev, List.mem_singleton] at hc
      omega
    | cons a rest ih =>
      by_cases ha : a < 35
      · simp only [increment_gds_rev, ha, if_true, List.mem_cons] at hc
        rcases hc with hc | hc
        · omega
        · exact h36 c (List.mem_cons_of_mem _ hc)
      · simp only [increment_gds_rev, ha, if_false, List.mem_cons] at hc
        rcases hc with hc | hc
        · omega
        · cases rest with
          | nil =>
            simp only [increment_gds_rev, List.mem_singleton] at hc
            omega
          | cons b rest2 =>
            exact ih (by simp) (fun x hx => h36 x (List.mem_cons_of_mem _ hx))
              (by simpa [last0_cons_cons] using hlast) hc
  · clear h36
    induction r with
    | nil => exact absurd rfl hne
    | cons a rest ih =>
      by_cases ha : a < 35
      · simp only [increment_gds_rev, ha, if_true]
        cases rest with
        | nil =>
          simp only [last0] at hlast ⊢
          omega
        | cons b rest2 =>
          rw [last0_cons_cons] at hlast ⊢
          exact hlast
      · simp only [increment_gds_rev, ha, if_false]
        cases rest with
        | nil =>
          simp [increment_gds_rev, last0]
        | cons b rest2 =>
          rw [last0_cons_of_ne_nil _ _ (increment_gds_rev_ne_nil _)]
          rw [last0_cons_cons] at hlast
          exact ih (by simp) hlast

lemma cell_name_value_reverse_succ (n : Nat) :
    (cell_name_value (n + 1)).reverse =
      increment_gds_rev ((cell_name_value n).reverse) := by
  simp [cell_name_value, increment_gds_name]

lemma WFrev_cell_name_value (n : Nat) : WFrev ((cell_name_value n).reverse) := by
  induction n with
  | zero =>
    refine ⟨by simp [cell_name_value], ?_, ?_⟩
    · intro c hc
      simp only [cell_name_value, List.reverse_singleton, List.mem_singleton] at hc
      omega
    · simp [cell_name_value, last0]
  | succ n ih =>
    rw [cell_name_value_reverse_succ]
    exact WFrev_increment _ ih

lemma valLE_cell_name_strictMono :
    StrictMono (fun n => valLE ((cell_name_value n).reverse)) := by
  apply strictMono_nat_of_lt_succ
  intro n
  rw [cell_name_value_reverse_succ]
  exact valLE_lt_increment _ (WFrev_cell_name_value n).2.1

lemma cell_name_value_injective : Function.Injective cell_name_value := by
  intro m n h
  by_contra hmn
  have : valLE ((cell_name_value m).reverse) ≠ valLE ((cell_name_value n).reverse) :=
    fun he => hmn (valLE_cell_name_strictMono.injective he)
  exact this (by rw [h])

lemma cell_name_value_length_monotone :
    Monotone (fun n => (cell_name_value n).length) := by
  apply monotone_nat_of_le_succ
  intro n
  have h := length_increment ((cell_name_value n).reverse)
  have hr : (cell_name_value (n + 1)).length =
      (increment_gds_rev ((cell_name_value n).reverse)).length := by
    rw [← cell_name_value_reverse_succ, List.length_reverse]
  rw [hr]
  rw [List.length_reverse] at h
  omega

lemma getLast?_eq_last0 (r : List Nat) (h : r ≠ []) :
    r.getLast? = some (last0 r) := by
  induction r with
  | nil => exact absurd rfl h
  | cons a rest ih =>
    cases rest with
    | nil => simp [last0]
    | cons b rest2 =>
      rw [List.getLast?_cons_cons, last0_cons_cons]
      exact ih (by simp)

lemma cell_name_value_head (n : Nat) :
    (cell_name_value n).head? = some (last0 ((cell_name_value n).reverse)) := by
  have h : (cell_name_value n).reverse ≠ [] := (WFrev_cell_name_value n).1
  calc (cell_name_value n).head?
      = ((cell_name_value n).reverse).reverse.head? := by rw [List.reverse_reverse]
    _ = ((cell_name_value n).reverse).getLast? := List.head?_reverse _
    _ = some (last0 ((cell_name_value n).reverse)) := getLast?_eq_last0 _ h

lemma nth_cell_name_head_bounds (n : Nat) :
    ∀ c, (nth_cell_name n).head? = some c → 10 ≤ c ∧ c < 36 := by
  intro c hc
  rw [nth_cell_name, cell_name_value_head] at hc
  injection hc with hc
  subst hc
  obtain ⟨hne, h36, hlast⟩ := WFrev_cell_name_value (n + 1)
  exact ⟨hlast, h36 _ (last0_mem _ hne)⟩

lemma gds_letter_all :
    ∀ i < 36, 10 ≤ i →
      'A' ≤ GDS_NAME_CHARS.getD i '?' ∧ GDS_NAME_CHARS.getD i '?' ≤ 'Z' := by
  decide

/-- Claim C4: along the sequence of names returned by `next_cell_name`,
names at different call indices are distinct, every name starts with an
alphabet position between 10 and 35 (an uppercase letter, so never a
digit), equivalently its first character decodes to a character between
`A` and `Z`, and the name length is monotonically non-decreasing across
successive calls. -/
theorem C4_identifier_generator (m n : Nat) :
    (m ≠ n → nth_cell_name m ≠ nth_cell_name n) ∧
    (∀ c, (nth_cell_name n).head? = some c → 10 ≤ c ∧ c < 36) ∧
    (∀ ch, (decodeName (nth_cell_name n)).head? = some ch →
      'A' ≤ ch ∧ ch ≤ 'Z') ∧
    (m ≤ n → (nth_cell_name m).length ≤ (nth_cell_name n).length) := by
  refine ⟨?_, nth_cell_name_head_bounds n, ?_, ?_⟩
  · intro hmn he
    exact hmn (by have := cell_name_value_injective he; omega)
  · intro ch hch
    rw [decodeName, List.head?_map] at hch
    cases hh : (nth_cell_name n).head? with
    | none => rw [hh] at hch; simp at hch
    | some c =>
      rw [hh] at hch
      simp only [Option.map_some'] at hch
      injection hch with hch
      subst hch
      obtain ⟨h10, h36⟩ := nth_cell_name_head_bounds n c hh
      exact gds_letter_all c h36 h10
  · intro hle
    exact cell_name_value_length_monotone (by omega : m + 1 ≤ n + 1)

/-- Claim C4 witness at call indices 0 and 1. -/
theorem C4_identifier_generator_witness :
    nth_cell_name 0 ≠ nth_cell_name 1 ∧ (10 ≤ 12 ∧ 12 < 36) ∧
      ('A' ≤ 'C' ∧ 'C' ≤ 'Z') ∧
      (nth_cell_name 0).length ≤ (nth_cell_name 1).length :=
  ⟨(C4_identifier_generator 0 1).1 (by decide),
   (C4_identifier_generator 0 1).2.1 12 (by decide),
   (C4_identifier_generator 0 1).2.2.1 'C' (by decide),
   (C4_identifier_generator 0 1).2.2.2 (by decide)⟩

/-- Claim C5 counterexample: `next_cell_name` stores its state on the
function object, initialised once per process, and `main()` never resets
it, so in a run whose first part declares ten glyphs, prebuilds the
length-1 dictionary and processes two rows (23 generator calls), the
first identifier of part 2 differs from the first identifier of
part 1. -/
theorem C5_counterexample_part_identifier :
    part_first_name (calls_per_part 10 1 2) ≠ part_first_name 0 := by
  decide

/-- Claim C5 (amended): the identifier generator state is process-wide
and is not reset at part boundaries; a part opened after `c ≥ 1` earlier
generator calls starts at element `c` of the single global sequence, so
its first identifier differs from the first identifier of part 1, and
identifiers remain pairwise distinct across the whole run (in
particular, still pairwise distinct within every part). -/
theorem C5_amended_generator_state_global (c m n : Nat) (hc : 1 ≤ c)
    (hmn : m ≠ n) :
    part_first_name c = nth_cell_name c ∧
    part_first_name c ≠ part_first_name 0 ∧
    nth_cell_name m ≠ nth_cell_name n := by
  refine ⟨rfl, ?_, ?_⟩
  · intro he
    have h2 : cell_name_value (c + 1) = cell_name_value (0 + 1) := he
    have := cell_name_value_injective h2
    omega
  · intro he
    exact hmn (by have := cell_name_value_injective he; omega)

/-- Claim C5 (amended) witness at 23 prior calls. -/
theorem C5_amended_generator_state_global_witness :
    part_first_name 23 = nth_cell_name 23 ∧
      part_first_name 23 ≠ part_first_name 0 ∧
      nth_cell_name 0 ≠ nth_cell_name 23 :=
  C5_amended_generator_state_global 23 0 23 (by decide) (by decide)

lemma decDigitsAux_eq : ∀ fuel n, n ≤ fuel → decDigitsAux fuel n = Nat.digits 10 n := by
  intro fuel
  induction fuel with
  | zero =>
    intro n hn
    have : n = 0 := Nat.le_zero.mp hn
    subst this
    simp [decDigitsAux]
  | succ fuel ih =>
    intro n hn
    cases n with
    | zero => simp [decDigitsAux]
    | succ n2 =>
      rw [decDigitsAux, ih ((n2 + 1) / 10) ?hle]
      · exact (Nat.digits_def' (by norm_num) (Nat.succ_pos n2)).symm
      case hle =>
        have h1 : (n2 + 1) / 10 < n2 + 1 := Nat.div_lt_self (Nat.succ_pos n2) (by norm_num)
        omega

lemma decDigits_eq (n : Nat) : decDigits n = Nat.digits 10 n :=
  decDigitsAux_eq n n le_rfl

lemma digitChar_toNat : ∀ d < 10, (digitChar d).toNat = 48 + d := by
  decide

lemma digitChar_mem_DIGITS : ∀ d < 10, digitChar d ∈ DIGITS := by
  decide

lemma py_zero_pad_entries_lt (w i : Nat) : ∀ d ∈ py_zero_pad w i, d < 10 := by
  intro d hd
  rw [py_zero_pad, decDigits_eq] at hd
  simp only [List.mem_append] at hd
  rcases hd with hd | hd
  · have := List.eq_of_mem_replicate hd
    omega
  · by_cases h0 : (Nat.digits 10 i).reverse = []
    · rw [if_pos h0, List.mem_singleton] at hd
      omega
    · rw [if_neg h0, List.mem_reverse] at hd
      exact Nat.digits_lt_base (by norm_num) hd

lemma py_zero_pad_ne_nil (w i : Nat) : py_zero_pad w i ≠ [] := by
  rw [py_zero_pad, decDigits_eq]
  by_cases h0 : (Nat.digits 10 i).reverse = [] <;>
    simp [h0]

lemma py_zero_pad_len_ge (w i : Nat) :
    w ≤ (py_zero_pad w i).length ∧ 1 ≤ (py_zero_pad w i).length := by
  rw [py_zero_pad, decDigits_eq]
  by_cases h0 : (Nat.digits 10 i).reverse = []
  · simp only [h0, if_true, List.length_append, List.length_replicate,
      List.length_singleton]
    omega
  · simp only [h0, if_false, List.length_append, List.length_replicate]
    have hpos := List.length_pos.mpr h0
    omega

lemma py_zero_pad_len_eq (w i : Nat) (hw : 1 ≤ w) (hi : i < 10 ^ w) :
    (py_zero_pad w i).length = w := by
  rw [py_zero_pad, decDigits_eq]
  by_cases h0 : (Nat.digits 10 i).reverse = []
  · simp only [h0, if_true, List.length_append, List.length_replicate,
      List.length_singleton]
    omega
  · have hine : i ≠ 0 := by
      intro h
      subst h
      simp [Nat.digits] at h0
    have hlen : (Nat.digits 10 i).length = Nat.log 10 i + 1 :=
      Nat.digits_len 10 i (by norm_num) hine
    have hlog : Nat.log 10 i < w := Nat.log_lt_of_lt_pow hine hi
    simp only [h0, if_false, List.length_append, List.length_replicate,
      List.length_reverse, hlen]
    omega

lemma py_zero_pad_decode (w i : Nat) :
    Nat.ofDigits 10 (py_zero_pad w i).reverse = i := by
  have hrep : ∀ n : Nat, Nat.ofDigits 10 (List.replicate n (0 : Nat)) = 0 := by
    intro n
    induction n with
    | zero => simp [Nat.ofDigits]
    | succ n ih => simp [List.replicate_succ, Nat.ofDigits_cons, ih]
  rw [py_zero_pad, decDigits_eq]
  by_cases h0 : (Nat.digits 10 i).reverse = []
  · have hi0 : i = 0 := by
      by_contra hne
      exact Nat.digits_ne_nil_iff_ne_zero.mpr hne (List.reverse_eq_nil_iff.mp h0)
    subst hi0
    simp only [h0, if_true, List.reverse_append, List.reverse_replicate,
      List.reverse_singleton]
    rw [Nat.ofDigits_append, hrep]
    simp [Nat.ofDigits_cons, Nat.ofDigits]
  · simp only [h0, if_false, List.reverse_append, List.reverse_replicate,
      List.reverse_reverse]
    rw [Nat.ofDigits_append, hrep, Nat.ofDigits_digits]
    ring

lemma py_zero_pad_injective (w i j : Nat)
    (h : py_zero_pad w i = py_zero_pad w j) : i = j := by
  have hi := py_zero_pad_decode w i
  have hj := py_zero_pad_decode w j
  rw [h] at hi
  omega

lemma py_zero_pad_str_entries (w i : Nat) :
    ∀ ch ∈ py_zero_pad_str w i, ch ∈ DIGITS := by
  intro ch hch
  rw [py_zero_pad_str] at hch
  obtain ⟨d, hd, hde⟩ := List.mem_map.mp hch
  subst hde
  exact digitChar_mem_DIGITS d (py_zero_pad_entries_lt w i d hd)

lemma py_zero_pad_str_len_eq (w i : Nat) (hw : 1 ≤ w) (hi : i < 10 ^ w) :
    (py_zero_pad_str w i).length = w := by
  rw [py_zero_pad_str, List.length_map]
  exact py_zero_pad_len_eq w i hw hi

lemma py_zero_pad_str_len_ge (w i : Nat) :
    w ≤ (py_zero_pad_str w i).length ∧ 1 ≤ (py_zero_pad_str w i).length := by
  rw [py_zero_pad_str, List.length_map]
  exact py_zero_pad_len_ge w i

lemma py_zero_pad_str_injective (w i j : Nat)
    (h : py_zero_pad_str w i = py_zero_pad_str w j) : i = j := by
  apply py_zero_pad_injective w
  have hmap : ∀ k : Nat, (py_zero_pad_str w k).map (fun c => c.toNat - 48) =
      py_zero_pad w k := by
    intro k
    rw [py_zero_pad_str, List.map_map]
    have : ∀ d ∈ py_zero_pad w k, ((fun c : Char => c.toNat - 48) ∘ digitChar) d = d := by
      intro d hd
      have hlt := py_zero_pad_entries_lt w k d hd
      simp [Function.comp, digitChar_toNat d hlt]
    calc (py_zero_pad w k).map ((fun c : Char => c.toNat - 48) ∘ digitChar)
        = (py_zero_pad w k).map id := List.map_congr_left this
      _ = py_zero_pad w k := List.map_id _
  rw [← hmap i, ← hmap j, h]

lemma place_digits_isSome [CommSemiring A] (g : Char → Option α) (aX : A) (s : List Char) :
    (∀ c ∈ s, (g c).isSome) → ∀ xx, ∃ ps, place_digits g aX s xx = some ps := by
  induction s with
  | nil => exact fun _ xx => ⟨[], rfl⟩
  | cons ch rest ih =>
    intro h xx
    obtain ⟨gcell, hg⟩ := Option.isSome_iff_exists.mp (h ch (List.mem_cons_self _ _))
    obtain ⟨ps, hps⟩ := ih (fun c hc => h c (List.mem_cons_of_mem _ hc)) (xx + aX)
    exact ⟨_, by rw [place_digits, hg, hps]⟩

lemma place_digits_spec [CommSemiring A] (g : Char → Option α) (aX : A) (s : List Char) :
    ∀ xx ps, place_digits g aX s xx = some ps →
      ps.length = s.length ∧
      ∀ (j : Nat) (pl : Placement A α), ps[j]? = some pl →
        (∃ c, s[j]? = some c ∧ g c = some pl.target) ∧
        pl.origin = (xx + (j : A) * aX, 0) := by
  induction s with
  | nil =>
    intro xx ps hps
    rw [place_digits] at hps
    injection hps with hps
    subst hps
    exact ⟨rfl, fun j pl h => by simp at h⟩
  | cons ch rest ih =>
    intro xx ps hps
    rw [place_digits] at hps
    cases hg : g ch with
    | none => rw [hg] at hps; exact absurd hps (by simp)
    | some gcell =>
      rw [hg] at hps
      cases hrec : place_digits g aX rest (xx + aX) with
      | none => rw [hrec] at hps; exact absurd hps (by simp)
      | some ps2 =>
        rw [hrec] at hps
        injection hps with hps
        subst hps
        obtain ⟨hlen, hel⟩ := ih (xx + aX) ps2 hrec
        refine ⟨by simp [hlen], ?_⟩
        intro j pl hj
        cases j with
        | zero =>
          simp only [List.getElem?_cons_zero] at hj
          injection hj with hj
          subst hj
          refine ⟨⟨ch, by simp, hg⟩, ?_⟩
          simp
        | succ j2 =>
          simp only [List.getElem?_cons_succ] at hj
          obtain ⟨⟨c, hc, hgc⟩, horig⟩ := hel j2 pl hj
          refine ⟨⟨c, by simpa using hc, hgc⟩, ?_⟩
          rw [horig]
          push_cast
          ring_nf

lemma build_entries_isSome [CommSemiring A] (g : Char → Option α) (aX : A) (len : Nat)
    (idxs : List Nat)
    (h : ∀ i ∈ idxs, ∃ ps, place_digits g aX (py_zero_pad_str len i) 0 = some ps) :
    ∃ m, build_entries g aX len idxs = some m := by
  induction idxs with
  | nil => exact ⟨[], rfl⟩
  | cons i rest ih =>
    obtain ⟨ps, hps⟩ := h i (List.mem_cons_self _ _)
    obtain ⟨m2, hm2⟩ := ih (fun i2 hi2 => h i2 (List.mem_cons_of_mem _ hi2))
    exact ⟨_, by rw [build_entries, hps, hm2]⟩

lemma build_entries_spec [CommSemiring A] (g : Char → Option α) (aX : A) (len : Nat) :
    ∀ (idxs : List Nat) m, build_entries g aX len idxs = some m →
      m.length = idxs.length ∧
      m.map Prod.fst = idxs.map (py_zero_pad_str len) ∧
      ∀ (j : Nat) (e : List Char × List (Placement A α)), m[j]? = some e →
        ∃ i, idxs[j]? = some i ∧ e.1 = py_zero_pad_str len i ∧
          place_digits g aX (py_zero_pad_str len i) 0 = some e.2 := by
  intro idxs
  induction idxs with
  | nil =>
    intro m hm
    rw [build_entries] at hm
    injection hm with hm
    subst hm
    exact ⟨rfl, rfl, fun j e h => by simp at h⟩
  | cons i rest ih =>
    intro m hm
    rw [build_entries] at hm
    cases hps : place_digits g aX (py_zero_pad_str len i) 0 with
    | none => rw [hps] at hm; exact absurd hm (by simp)
    | some ps =>
      rw [hps] at hm
      cases hrec : build_entries g aX len rest with
      | none => rw [hrec] at hm; exact absurd hm (by simp)
      | some es =>
        rw [hrec] at hm
        injection hm with hm
        subst hm
        obtain ⟨hlen, hkeys, hel⟩ := ih es hrec
        refine ⟨by simp [hlen], by simp [hkeys], ?_⟩
        intro j e hj
        cases j with
        | zero =>
          simp only [List.getElem?_cons_zero] at hj
          injection hj with hj
          subst hj
          exact ⟨i, by simp, rfl, hps⟩
        | succ j2 =>
          simp only [List.getElem?_cons_succ] at hj
          obtain ⟨i2, hi2, he1, hpl⟩ := hel j2 e hj
          exact ⟨i2, by simpa using hi2, he1, hpl⟩

lemma build_isSome [CommSemiring A] (g : Char → Option α) (aX : A) (len : Nat)
    (hg : ∀ d ∈ DIGITS, (g d).isSome) :
    ∃ m, build_digit_string_cells_map g aX len = some m := by
  have hfil : (DIGITS.filter fun d => (g d).isNone) = [] := by
    rw [List.filter_eq_nil_iff]
    intro d hd
    have := hg d hd
    simp only [Option.isNone_iff_eq_none]
    intro hnone
    rw [hnone] at this
    simp at this
  have hplace : ∀ i ∈ List.range (10 ^ len),
      ∃ ps, place_digits g aX (py_zero_pad_str len i) 0 = some ps := by
    intro i _
    apply place_digits_isSome
    intro c hc
    exact hg c (py_zero_pad_str_entries len i c hc)
  obtain ⟨m, hm⟩ := build_entries_isSome g aX len (List.range (10 ^ len)) hplace
  refine ⟨m, ?_⟩
  rw [build_digit_string_cells_map, if_neg (by simp [hfil]), hm]

lemma build_eq_entries [CommSemiring A] (g : Char → Option α) (aX : A)
    (len : Nat) (m : List (List Char × List (Placement A α)))
    (hm : build_digit_string_cells_map g aX len = some m) :
    build_entries g aX len (List.range (10 ^ len)) = some m := by
  rw [build_digit_string_cells_map] at hm
  by_cases hfil : (DIGITS.filter fun d => (g d).isNone) ≠ []
  · rw [if_pos hfil] at hm
    exact absurd hm (by simp)
  · rw [if_neg hfil] at hm
    exact hm

lemma dict_get_mem_keys (k : List Char) (m : List (List Char × γ)) (v : γ)
    (h : dict_get k m = some v) : k ∈ m.map Prod.fst := by
  induction m with
  | nil => rw [dict_get] at h; exact Option.noConfusion h
  | cons e rest ih =>
    obtain ⟨k2, v2⟩ := e
    rw [dict_get] at h
    by_cases hk : k = k2
    · rw [hk, List.map_cons]
      exact List.mem_cons_self _ _
    · rw [if_neg hk] at h
      exact List.mem_cons_of_mem _ (ih h)

lemma dict_get_eq_none (k : List Char) (m : List (List Char × γ))
    (h : k ∉ m.map Prod.fst) : dict_get k m = none := by
  induction m with
  | nil => rfl
  | cons e rest ih =>
    obtain ⟨k2, v2⟩ := e
    simp only [List.map_cons, List.mem_cons, not_or] at h
    rw [dict_get, if_neg h.1]
    exact ih h.2

lemma dict_get_of_getElem (m : List (List Char × γ))
    (hnd : (m.map Prod.fst).Nodup) :
    ∀ (j : Nat) (e : List Char × γ), m[j]? = some e →
      dict_get e.1 m = some e.2 := by
  induction m with
  | nil => intro j e h; simp at h
  | cons e0 rest ih =>
    intro j e h
    obtain ⟨k0, v0⟩ := e0
    cases j with
    | zero =>
      simp only [List.getElem?_cons_zero] at h
      injection h with h
      subst h
      simp [dict_get]
    | succ j2 =>
      simp only [List.getElem?_cons_succ] at h
      have hmem : e ∈ rest := List.getElem?_mem h
      have hne : e.1 ≠ k0 := by
        intro heq
        simp only [List.map_cons, List.nodup_cons] at hnd
        exact hnd.1 (heq ▸ List.mem_map_of_mem Prod.fst hmem)
      rw [dict_get, if_neg hne]
      exact ih (by simp only [List.map_cons, List.nodup_cons] at hnd; exact hnd.2) j2 e h

lemma build_keys_nodup [CommSemiring A] (g : Char → Option α) (aX : A)
    (len : Nat) (m : List (List Char × List (Placement A α)))
    (hm : build_digit_string_cells_map g aX len = some m) :
    (m.map Prod.fst).Nodup := by
  obtain ⟨_, hkeys, _⟩ :=
    build_entries_spec g aX len _ m (build_eq_entries g aX len m hm)
  rw [hkeys]
  exact (List.nodup_range _).map fun i j h => py_zero_pad_str_injective len i j h

/-- Claim C3: for run length `L ≥ 1` and a glyph map containing the ten
digit glyphs, the dictionary builder succeeds and returns a mapping with
exactly `10 ^ L` entries whose keys are precisely the zero-padded
L-digit decimal strings of `0 .. 10 ^ L - 1` in order; the entry at
index `i` is keyed by the string for `i` and holds exactly `L`
placements, the `j`-th referencing the glyph symbol of the `j`-th
character of the key at horizontal offset `j * advanceX` (vertical
offset 0). -/
theorem C3_dictionary_completeness [CommSemiring A] (g : Char → Option α) (aX : A) (L : Nat)
    (hL : 1 ≤ L) (hg : ∀ d ∈ DIGITS, (g d).isSome) :
    ∃ m, build_digit_string_cells_map g aX L = some m ∧
      m.length = 10 ^ L ∧
      m.map Prod.fst = (List.range (10 ^ L)).map (py_zero_pad_str L) ∧
      ∀ (i : Nat) (e : List Char × List (Placement A α)), m[i]? = some e →
        e.1 = py_zero_pad_str L i ∧ e.1.length = L ∧ e.2.length = L ∧
        ∀ (j : Nat) (pl : Placement A α), e.2[j]? = some pl →
          (∃ c, e.1[j]? = some c ∧ g c = some pl.target) ∧
          pl.origin = ((j : A) * aX, 0) := by
  obtain ⟨m, hm⟩ := build_isSome g aX L hg
  obtain ⟨hlen, hkeys, hel⟩ :=
    build_entries_spec g aX L _ m (build_eq_entries g aX L m hm)
  refine ⟨m, hm, by simpa using hlen, hkeys, ?_⟩
  intro i e he
  obtain ⟨i2, hi2, he1, hpl⟩ := hel i e he
  have hilt : i < 10 ^ L := by
    have h1 := (List.getElem?_eq_some.mp he).1
    rw [hlen, List.length_range] at h1
    exact h1
  have hi2i : i2 = i := by
    rw [List.getElem?_range hilt] at hi2
    injection hi2 with hi2
    omega
  rw [hi2i] at he1 hpl
  obtain ⟨hplen, hpel⟩ := place_digits_spec g aX _ 0 e.2 hpl
  have hkeylen : e.1.length = L := by
    rw [he1]
    exact py_zero_pad_str_len_eq L i hL hilt
  refine ⟨he1, hkeylen, ?_, ?_⟩
  · rw [hplen, ← he1, hkeylen]
  · intro j pl hj
    obtain ⟨⟨c, hc, hgc⟩, horig⟩ := hpel j pl hj
    refine ⟨⟨c, by rw [he1]; exact hc, hgc⟩, ?_⟩
    rw [horig, zero_add]

/-- Claim C3 witness at the concrete digit glyph map, advance 1, run
length 1. -/
theorem C3_dictionary_completeness_witness :
    ∃ m, build_digit_string_cells_map digit_glyphs (1 : ℚ) 1 = some m ∧
      m.length = 10 ^ 1 ∧
      m.map Prod.fst = (List.range (10 ^ 1)).map (py_zero_pad_str 1) ∧
      ∀ (i : Nat) (e : List Char × List (Placement ℚ Char)), m[i]? = some e →
        e.1 = py_zero_pad_str 1 i ∧ e.1.length = 1 ∧ e.2.length = 1 ∧
        ∀ (j : Nat) (pl : Placement ℚ Char), e.2[j]? = some pl →
          (∃ c, e.1[j]? = some c ∧ digit_glyphs c = some pl.target) ∧
          pl.origin = ((j : ℚ) * 1, 0) :=
  C3_dictionary_completeness digit_glyphs 1 1 (by decide) (by decide)

/-- Claim C6 is contradicted by the code: at run length 0 the builder
does not return an empty mapping.  `range(10 ** 0)` is `range(1)` and
Python zero-width zero-padded formatting renders `0` as `"0"`, so the
builder returns a one-entry mapping keyed `"0"` (whose cell holds one
placement of the glyph of `0`), while the `--prebuilt-digits-len` help
text of the program states that `N=0` creates no prebuilt cells.
Evaluated at the concrete digit glyph map with advance 1. -/
theorem C6_builder_at_length_zero :
    build_digit_string_cells_map digit_glyphs (1 : ℤ) 0 =
      some [(['0'], [⟨'0', (0, 0)⟩])] ∧
    (build_digit_string_cells_map digit_glyphs (1 : ℤ) 0).map List.length ≠
      some 0 := by
  constructor
  · rfl
  · decide

lemma build_lookup_pad [CommSemiring A] (g : Char → Option α) (aX : A)
    (L : Nat) (m : List (List Char × List (Placement A α)))
    (hm : build_digit_string_cells_map g aX L = some m) :
    ∀ k v, dict_get k m = some v → ∃ i, i < 10 ^ L ∧ k = py_zero_pad_str L i := by
  intro k v h
  have hk := dict_get_mem_keys k m v h
  obtain ⟨_, hkeys, _⟩ :=
    build_entries_spec g aX L _ m (build_eq_entries g aX L m hm)
  rw [hkeys] at hk
  obtain ⟨i, hi, he⟩ := List.mem_map.mp hk
  exact ⟨i, List.mem_range.mp hi, he.symm⟩

lemma build_match_bounds [CommSemiring A] (g : Char → Option α) (aX : A)
    (L : Nat) (m : List (List Char × List (Placement A α)))
    (hm : build_digit_string_cells_map g aX L = some m) :
    ∀ (t : List Char) v, dict_get (t.take L) m = some v →
      1 ≤ L ∧ L ≤ t.length := by
  intro t v h
  obtain ⟨i, _, hk⟩ := build_lookup_pad g aX L m hm _ v h
  obtain ⟨hge, h1⟩ := py_zero_pad_str_len_ge L i
  have h2 : L ⊓ t.length = (py_zero_pad_str L i).length := by
    rw [← List.length_take, hk]
  have h3 : L ≤ L ⊓ t.length := by omega
  have h4 : (1 : Nat) ≤ L ⊓ t.length := by omega
  exact ⟨le_trans h4 (min_le_left _ _), le_trans h3 (min_le_right _ _)⟩

lemma loop_no_fuel_exhausted [CommSemiring A] (gly : Char → Option α)
    (cmap : List Char → Option β) (L : Nat) (aX : A)
    (H : ∀ (t : List Char) c, cmap (t.take L) = some c → 1 ≤ L) :
    ∀ (fuel : Nat) (st : RowSt A α β) (s : List Char), s.length ≤ fuel →
      row_to_cell_loop gly cmap L aX fuel st s ≠ .error .fuelExhausted := by
  intro fuel
  induction fuel with
  | zero =>
    intro st s hs
    cases s with
    | nil => simp [row_to_cell_loop]
    | cons ch rest => simp at hs
  | succ fuel ih =>
    intro st s hs
    cases s with
    | nil => simp [row_to_cell_loop]
    | cons ch rest =>
      cases hc : cmap ((ch :: rest).take L) with
      | some mc =>
        have hL := H (ch :: rest) mc hc
        simp only [row_to_cell_loop, hc]
        apply ih
        simp only [List.length_drop, List.length_cons] at *
        omega
      | none =>
        by_cases hsp : ch = ' '
        · subst hsp
          simp only [row_to_cell_loop, hc]
          rw [if_true]
          apply ih
          simp only [List.length_cons] at hs
          omega
        · simp only [row_to_cell_loop, hc]
          rw [if_neg hsp]
          cases hg : gly ch with
          | none => simp [hg]
          | some gcell =>
            simp only [hg]
            apply ih
            simp only [List.length_cons] at hs
            omega

/-- Claim C10: for every input row and every run length `L ≥ 0`, when
the dictionary passed to the row compiler is the one produced by the
builder (whose keys all have length at least 1), the row compilation
loop terminates: a fuel budget of one iteration per input character is
never exhausted, because a successful dictionary match consumes `L ≥ 1`
characters and the fallback consumes exactly one. -/
theorem C10_row_loop_terminates [CommSemiring A] (g : Char → Option α)
    (aX : A) (L : Nat) (m : List (List Char × List (Placement A α)))
    (hm : build_digit_string_cells_map g aX L = some m)
    (u : List Char → Nat) (cc dc : Nat) (s : List Char) :
    row_to_cell g (cmap_of m) L aX u cc dc s ≠ .error .fuelExhausted := by
  apply loop_no_fuel_exhausted
  · intro t c hc
    exact (build_match_bounds g aX L m hm t c hc).1
  · exact le_rfl

/-- Claim C10 witness: digit glyph map, advance 1, run length 1, row
`"12"`. -/
theorem C10_row_loop_terminates_witness :
    ∃ m, build_digit_string_cells_map digit_glyphs (1 : ℤ) 1 = some m ∧
      row_to_cell digit_glyphs (cmap_of m) 1 (1 : ℤ) (fun _ => 0) 0 0
        ['1', '2'] ≠ .error .fuelExhausted :=
  ⟨_, rfl, C10_row_loop_terminates digit_glyphs 1 1 _ rfl (fun _ => 0) 0 0
    ['1', '2']⟩

lemma loop_xx_ok [CommSemiring A] (gly : Char → Option α)
    (cmap : List Char → Option β) (L : Nat) (aX : A)
    (H : ∀ (t : List Char) c, cmap (t.take L) = some c →
      1 ≤ L ∧ L ≤ t.length) :
    ∀ (fuel : Nat) (st : RowSt A α β) (s : List Char) (st' : RowSt A α β),
      row_to_cell_loop gly cmap L aX fuel st s = .ok st' →
      st'.xx = st.xx + aX * (s.length : A) := by
  intro fuel
  induction fuel with
  | zero =>
    intro st s st' h
    cases s with
    | nil =>
      rw [row_to_cell_loop] at h
      injection h with h
      subst h
      simp
    | cons ch rest =>
      rw [row_to_cell_loop] at h
      exact Except.noConfusion h
  | succ fuel ih =>
    intro st s st' h
    cases s with
    | nil =>
      rw [row_to_cell_loop] at h
      injection h with h
      subst h
      simp
    | cons ch rest =>
      cases hc : cmap ((ch :: rest).take L) with
      | some mc =>
        obtain ⟨hL1, hL2⟩ := H (ch :: rest) mc hc
        simp only [row_to_cell_loop, hc] at h
        have hx := ih _ _ _ h
        have hlen : (ch :: rest).length =
            L + ((ch :: rest).drop L).length := by
          simp only [List.length_drop]
          simp only [List.length_cons] at hL2 ⊢
          omega
        rw [hx, hlen]
        push_cast
        ring
      | none =>
        by_cases hsp : ch = ' '
        · subst hsp
          simp only [row_to_cell_loop, hc] at h
          rw [if_true] at h
          have hx := ih _ _ _ h
          rw [hx]
          simp only [List.length_cons]
          push_cast
          ring
        · simp only [row_to_cell_loop, hc] at h
          rw [if_neg hsp] at h
          cases hg : gly ch with
          | none =>
            simp only [hg] at h
            exact Except.noConfusion h
          | some gcell =>
            simp only [hg] at h
            have hx := ih _ _ _ h
            rw [hx]
            simp only [List.length_cons]
            push_cast
            ring

/-- Claim C2: with the dictionary produced by the builder, whenever the
row compiler finishes a row (the line with its trailing newline
trimmed), the final horizontal cursor equals `advanceX` times the
number of characters of the trimmed row: a match of length `L`
contributes `L * advanceX` and every fallback character, the space
included, contributes exactly `advanceX`. -/
theorem C2_advance_conservation [CommSemiring A] (g : Char → Option α)
    (aX : A) (L : Nat) (m : List (List Char × List (Placement A α)))
    (hm : build_digit_string_cells_map g aX L = some m)
    (line : List Char) (u : List Char → Nat) (cc dc : Nat)
    (st : RowSt A α (List (Placement A α)))
    (h : row_to_cell g (cmap_of m) L aX u cc dc
      (strip_trailing_newline line) = .ok st) :
    st.xx = aX * (((strip_trailing_newline line).length : Nat) : A) := by
  have hx := loop_xx_ok g (cmap_of m) L aX
    (build_match_bounds g aX L m hm) _ _ _ _ h
  rw [hx]
  simp

/-- Claim C2 witness: digit glyph map, advance 1, run length 1, line
`"12\n"` (trimmed to `"12"`, two characters). -/
theorem C2_advance_conservation_witness :
    ∃ m st, build_digit_string_cells_map digit_glyphs (1 : ℤ) 1 = some m ∧
      row_to_cell digit_glyphs (cmap_of m) 1 (1 : ℤ) (fun _ => 0) 0 0
        (strip_trailing_newline ['1', '2', '\n']) = .ok st ∧
      st.xx = 1 * (((strip_trailing_newline ['1', '2', '\n']).length : Nat) : ℤ) :=
  ⟨_, _, rfl, rfl,
    C2_advance_conservation digit_glyphs 1 1 _ rfl ['1', '2', '\n']
      (fun _ => 0) 0 0 _ rfl⟩

lemma loop_cmap_congr [CommSemiring A] (gly : Char → Option α)
    (cmapA cmapB : List Char → Option β) (L : Nat) (aX : A)
    (H : ∀ t : List Char, cmapA (t.take L) = cmapB (t.take L)) :
    ∀ (fuel : Nat) (st : RowSt A α β) (s : List Char),
      row_to_cell_loop gly cmapA L aX fuel st s =
        row_to_cell_loop gly cmapB L aX fuel st s := by
  intro fuel
  induction fuel with
  | zero => intro st s; cases s <;> rfl
  | succ fuel ih =>
    intro st s
    cases s with
    | nil => rfl
    | cons ch rest =>
      have hcc := H (ch :: rest)
      cases hc : cmapB ((ch :: rest).take L) with
      | some mc =>
        have hcA : cmapA ((ch :: rest).take L) = some mc := by rw [hcc, hc]
        simp only [row_to_cell_loop, hc, hcA]
        exact ih _ _
      | none =>
        have hcA : cmapA ((ch :: rest).take L) = none := by rw [hcc, hc]
        simp only [row_to_cell_loop, hc, hcA]
        by_cases hsp : ch = ' '
        · subst hsp
          rw [if_pos rfl, if_pos rfl]
          exact ih _ _
        · rw [if_neg hsp, if_neg hsp]
          cases hg : gly ch with
          | none => simp only [hg]
          | some gcell =>
            simp only [hg]
            exact ih _ _

lemma loop_none_usage [CommSemiring A] (gly : Char → Option α) (L : Nat)
    (aX : A) :
    ∀ (fuel : Nat) (st : RowSt A α β) (s : List Char) (st' : RowSt A α β),
      row_to_cell_loop gly (fun _ => none) L aX fuel st s = .ok st' →
      st'.usage = st.usage := by
  intro fuel
  induction fuel with
  | zero =>
    intro st s st' h
    cases s with
    | nil =>
      rw [row_to_cell_loop] at h
      injection h with h
      subst h
      rfl
    | cons ch rest =>
      rw [row_to_cell_loop] at h
      exact Except.noConfusion h
  | succ fuel ih =>
    intro st s st' h
    cases s with
    | nil =>
      rw [row_to_cell_loop] at h
      injection h with h
      subst h
      rfl
    | cons ch rest =>
      simp only [row_to_cell_loop] at h
      by_cases hsp : ch = ' '
      · subst hsp
        rw [if_pos rfl] at h
        have h2 := ih _ _ _ h
        exact h2
      · rw [if_neg hsp] at h
        cases hg : gly ch with
        | none =>
          simp only [hg] at h
          exact Except.noConfusion h
        | some gcell =>
          simp only [hg] at h
          have h2 := ih _ _ _ h
          exact h2

/-- Claim C7: when the run length is 0 and the dictionary is the one
the builder produced for length 0, the row compiler behaves exactly as
it would with no dictionary at all — the length-0 prefix it looks up is
the empty string, which is not a key of the builder mapping (whose only
key is `"0"`), so every character goes through the single-character
fallback and the usage mapping is never incremented. -/
theorem C7_fallback_at_length_zero [CommSemiring A] (g : Char → Option α)
    (aX : A) (m : List (List Char × List (Placement A α)))
    (hm : build_digit_string_cells_map g aX 0 = some m)
    (u : List Char → Nat) (cc dc : Nat) (s : List Char) :
    row_to_cell g (cmap_of m) 0 aX u cc dc s =
      row_to_cell g (fun _ => none) 0 aX u cc dc s ∧
    (∀ st, row_to_cell g (cmap_of m) 0 aX u cc dc s = .ok st →
      st.usage = u) := by
  have hnone : ∀ t : List Char, cmap_of m (t.take 0) = none := by
    intro t
    rw [List.take_zero]
    apply dict_get_eq_none
    obtain ⟨_, hkeys, _⟩ :=
      build_entries_spec g aX 0 _ m (build_eq_entries g aX 0 m hm)
    rw [hkeys]
    intro hmem
    obtain ⟨i, _, he⟩ := List.mem_map.mp hmem
    have h1 := (py_zero_pad_str_len_ge 0 i).2
    rw [he] at h1
    simp at h1
  have hcongr := loop_cmap_congr g (cmap_of m) (fun _ => none) 0 aX
    (fun t => hnone t) s.length
    { placements := [], xx := 0, cell_count := cc, digit_count := dc,
      usage := u } s
  refine ⟨hcongr, ?_⟩
  intro st h
  rw [row_to_cell] at h
  rw [hcongr] at h
  exact loop_none_usage g 0 aX _ _ _ _ h

/-- Claim C7 witness: length-0 builder dictionary, digit glyph map,
advance 1, row `"4 "`. -/
theorem C7_fallback_at_length_zero_witness :
    ∃ m, build_digit_string_cells_map digit_glyphs (1 : ℤ) 0 = some m ∧
      (row_to_cell digit_glyphs (cmap_of m) 0 (1 : ℤ) (fun _ => 0) 0 0
          ['4', ' '] =
        row_to_cell digit_glyphs (fun _ => none) 0 (1 : ℤ) (fun _ => 0) 0 0
          ['4', ' ']) ∧
      (∀ st, row_to_cell digit_glyphs (cmap_of m) 0 (1 : ℤ) (fun _ => 0) 0 0
          ['4', ' '] = .ok st → st.usage = (fun _ => 0)) :=
  ⟨_, rfl,
    (C7_fallback_at_length_zero digit_glyphs 1 _ rfl (fun _ => 0) 0 0
      ['4', ' ']).1,
    (C7_fallback_at_length_zero digit_glyphs 1 _ rfl (fun _ => 0) 0 0
      ['4', ' ']).2⟩

lemma build_dict_get_none_of_length [CommSemiring A] (g : Char → Option α)
    (aX : A) (L : Nat) (m : List (List Char × List (Placement A α)))
    (hm : build_digit_string_cells_map g aX L = some m) (hL : 1 ≤ L)
    (k : List Char) (hk : k.length ≠ L) : dict_get k m = none := by
  apply dict_get_eq_none
  obtain ⟨_, hkeys, _⟩ :=
    build_entries_spec g aX L _ m (build_eq_entries g aX L m hm)
  rw [hkeys]
  intro hmem
  obtain ⟨i, hi, he⟩ := List.mem_map.mp hmem
  apply hk
  rw [← he]
  exact py_zero_pad_str_len_eq L i hL (List.mem_range.mp hi)

/-- Claim C1: one loop iteration of the row compiler, whenever the next
`L` characters of the remaining input are a key of the dictionary,
performs exactly the matched update: it appends exactly one placement
referencing the dictionary symbol at the current cursor, advances the
cursor by `L * advanceX`, moves past `L` input characters, and
increments exactly that key of the usage mapping — with no shorter or
offset match attempted.  In particular, for `L = 2` and input row
`"123"` over a digit font, the compiler emits one dictionary placement
for `"12"` at `x = 0` and then one single-character glyph placement for
`'3'` at `x = 2 * advanceX`, the usage count of `"12"` becoming 1. -/
theorem C1_greedy_fixed_length_match [CommSemiring A] (gly : Char → Option α)
    (cmap : List Char → Option β) (L : Nat) (_hL : 1 ≤ L) (aX : A) :
    (∀ (fuel : Nat) (st : RowSt A α β) (ch : Char) (rest : List Char)
        (mc : β), cmap ((ch :: rest).take L) = some mc →
      row_to_cell_loop gly cmap L aX (fuel + 1) st (ch :: rest) =
        row_to_cell_loop gly cmap L aX fuel
          { placements :=
              st.placements ++ [⟨RowRef.combined mc, (st.xx, 0)⟩],
            xx := st.xx + aX * (L : A),
            cell_count := st.cell_count + 1,
            digit_count := st.digit_count + L,
            usage := bump st.usage ((ch :: rest).take L) }
          ((ch :: rest).drop L)) ∧
    (∀ (m : List (List Char × List (Placement A Char))) (mc : List (Placement A Char)),
      build_digit_string_cells_map digit_glyphs aX 2 = some m →
      dict_get ['1', '2'] m = some mc →
      ∃ st, row_to_cell digit_glyphs (cmap_of m) 2 aX (fun _ => 0) 0 0
          ['1', '2', '3'] = .ok st ∧
        st.placements = [⟨RowRef.combined mc, (0, 0)⟩,
          ⟨RowRef.glyph '3', (2 * aX, 0)⟩] ∧
        st.xx = 3 * aX ∧ st.usage ['1', '2'] = 1) := by
  constructor
  · intro fuel st ch rest mc hc
    simp only [row_to_cell_loop, hc]
  · intro m mc hm hmc
    have h3 : dict_get ['3'] m = none :=
      build_dict_get_none_of_length digit_glyphs aX 2 m hm (by omega) ['3']
        (by decide)
    have hmc2 : cmap_of m (List.take 2 (['1', '2', '3'] : List Char)) =
        some mc := hmc
    have h32 : cmap_of m (List.take 2 (['3'] : List Char)) = none := h3
    have hdrop : List.drop 2 (['1', '2', '3'] : List Char) = ['3'] := rfl
    have hg3 : digit_glyphs '3' = some '3' := rfl
    have hrun : row_to_cell digit_glyphs (cmap_of m) 2 aX (fun _ => 0) 0 0
        ['1', '2', '3'] = .ok
          { placements :=
              ([] ++ [⟨RowRef.combined mc, ((0 : A), 0)⟩]) ++
                [⟨RowRef.glyph '3', (0 + aX * ((2 : Nat) : A), 0)⟩],
            xx := (0 + aX * ((2 : Nat) : A)) + aX,
            cell_count := (0 + 1) + 1,
            digit_count := (0 + 2) + 1,
            usage := bump (fun _ => 0) (List.take 2 (['1', '2', '3'] : List Char)) } := by
      rw [row_to_cell]
      simp only [row_to_cell_loop, hmc2, hdrop]
      simp only [row_to_cell_loop, h32]
      rw [if_neg (by decide : ¬ ('3' : Char) = ' ')]
      simp only [hg3]
    refine ⟨_, hrun, ?_, ?_, ?_⟩
    · have hx : (0 : A) + aX * ((2 : Nat) : A) = 2 * aX := by
        push_cast
        ring
      simp only [List.nil_append, List.singleton_append, hx]
    · have hx3 : ((0 : A) + aX * ((2 : Nat) : A)) + aX = 3 * aX := by
        push_cast
        ring
      exact hx3
    · rfl

/-- Claim C1 witness: digit glyph map, advance 1 over `ℤ`, run length
2, the step equation instantiated at the start of row `"123"` and the
full example row compiled. -/
theorem C1_greedy_fixed_length_match_witness :
    ∃ m mc,
      build_digit_string_cells_map digit_glyphs (1 : ℤ) 2 = some m ∧
      dict_get ['1', '2'] m = some mc ∧
      (row_to_cell_loop digit_glyphs (cmap_of m) 2 (1 : ℤ) 3
          { placements := [], xx := 0, cell_count := 0, digit_count := 0,
            usage := fun _ => 0 } ['1', '2', '3'] =
        row_to_cell_loop digit_glyphs (cmap_of m) 2 (1 : ℤ) 2
          { placements := [] ++ [⟨RowRef.combined mc, ((0 : ℤ), 0)⟩],
            xx := 0 + 1 * ((2 : Nat) : ℤ),
            cell_count := 0 + 1,
            digit_count := 0 + 2,
            usage := bump (fun _ => 0)
              ((['1', '2', '3'] : List Char).take 2) }
          ((['1', '2', '3'] : List Char).drop 2)) ∧
      (∃ st, row_to_cell digit_glyphs (cmap_of m) 2 (1 : ℤ) (fun _ => 0) 0 0
          ['1', '2', '3'] = .ok st ∧
        st.placements = [⟨RowRef.combined mc, (0, 0)⟩,
          ⟨RowRef.glyph '3', (2 * 1, 0)⟩] ∧
        st.xx = 3 * 1 ∧ st.usage ['1', '2'] = 1) := by
  refine ⟨_, _, rfl, rfl, ?_, ?_⟩
  · exact (C1_greedy_fixed_length_match digit_glyphs
      (cmap_of ((build_digit_string_cells_map digit_glyphs (1 : ℤ) 2).getD []))
      2 (by decide) (1 : ℤ)).1 2
      { placements := [], xx := 0, cell_count := 0, digit_count := 0,
        usage := fun _ => 0 } '1' ['2', '3'] _ rfl
  · exact (C1_greedy_fixed_length_match digit_glyphs
      (cmap_of ((build_digit_string_cells_map digit_glyphs (1 : ℤ) 2).getD []))
      2 (by decide) (1 : ℤ)).2 _ _ rfl rfl

/-- Claim C8 counterexample: the `ValueError` the row loop raises for a
missing glyph carries only the offending character, not its row or
column.  A run whose first row is `"#"` (row 0, column 0) and a run
whose second row is `"1#"` (row 1, column 1) fail with exactly the same
error value, so the error cannot name the position; the claim that the
failure names both the character and its row/column is therefore false
on the code. -/
theorem C8_counterexample_error_has_no_position :
    main_error (main_parts digit_glyphs
        (cmap_of ((build_digit_string_cells_map digit_glyphs (1 : ℤ) 1).getD []))
        1 (1 : ℤ) (some 1) 2 [['#']] (fun _ => 0) []) =
      main_error (main_parts digit_glyphs
        (cmap_of ((build_digit_string_cells_map digit_glyphs (1 : ℤ) 1).getD []))
        1 (1 : ℤ) (some 1) 3 [['1', '1'], ['1', '#']] (fun _ => 0) []) ∧
    main_error (main_parts digit_glyphs
        (cmap_of ((build_digit_string_cells_map digit_glyphs (1 : ℤ) 1).getD []))
        1 (1 : ℤ) (some 1) 2 [['#']] (fun _ => 0) []) =
      some (RowErr.missingGlyph '#') := by
  exact ⟨rfl, rfl⟩

lemma main_parts_error_acc [CommSemiring A] (gly : Char → Option α)
    (cmap : List Char → Option β) (L : Nat) (aX : A) (ch : Char)
    (badLine : List Char) (restLines : List (List Char))
    (hbad : ∀ (u : List Char → Nat) (cc dc : Nat),
      row_to_cell gly cmap L aX u cc dc (strip_trailing_newline badLine) =
        .error (.missingGlyph ch)) :
    ∀ (goodLines : List (List Char)),
      (∀ l ∈ goodLines, ∀ (u : List Char → Nat) (cc dc : Nat),
        ∃ st, row_to_cell gly cmap L aX u cc dc (strip_trailing_newline l) =
            .ok st ∧
          st.placements = row_placements_of gly cmap L aX l) →
      ∀ (u0 : List Char → Nat)
        (parts : List (List (List (RowPlacement A α β)))),
      main_parts gly cmap L aX (some 1) (goodLines.length + 1)
          (goodLines ++ badLine :: restLines) u0 parts =
        .error (.missingGlyph ch,
          parts ++ goodLines.map fun l =>
            [row_placements_of gly cmap L aX l]) := by
  intro goodLines
  induction goodLines with
  | nil =>
    intro _ u0 parts
    simp only [List.nil_append, List.length_nil, Nat.zero_add, List.map_nil,
      List.append_nil]
    rw [main_parts, stream_rows, hbad u0 0 0]
  | cons l ls ih =>
    intro hgood u0 parts
    obtain ⟨st, hst, hpl⟩ := hgood l (List.mem_cons_self _ _) u0 0 0
    simp only [List.cons_append, List.length_cons]
    rw [main_parts, stream_rows, hst]
    have hlim : limit_reached (some 1) (0 + 1) = true := by
      simp [limit_reached]
    rw [hlim]
    simp only [if_true]
    have hrec := ih (fun l2 hl2 => hgood l2 (List.mem_cons_of_mem _ hl2))
      st.usage (parts ++ [[] ++ [st.placements]])
    simp only [List.map_cons]
    rw [hrec]
    rw [hpl]
    simp [List.append_assoc]

/-- Claim C8 (amended): when an input row contains a character that is
not the space character, starts no dictionary match, and has no glyph,
the run fails with the missing-glyph error naming the offending
character (but not its row/column position, which the raised error does
not carry), no artifact is written for the in-progress part, and all
previously written parts are exactly the artifacts of the rows that
preceded it (one row per part here), unchanged. -/
theorem C8_missing_glyph_aborts_part [CommSemiring A]
    (gly : Char → Option α) (cmap : List Char → Option β) (L : Nat) (aX : A)
    (ch : Char) (goodLines : List (List Char)) (badLine : List Char)
    (restLines : List (List Char))
    (hgood : ∀ l ∈ goodLines, ∀ (u : List Char → Nat) (cc dc : Nat),
      ∃ st, row_to_cell gly cmap L aX u cc dc (strip_trailing_newline l) =
          .ok st ∧
        st.placements = row_placements_of gly cmap L aX l)
    (hbad : ∀ (u : List Char → Nat) (cc dc : Nat),
      row_to_cell gly cmap L aX u cc dc (strip_trailing_newline badLine) =
        .error (.missingGlyph ch))
    (u0 : List Char → Nat) :
    main_parts gly cmap L aX (some 1) (goodLines.length + 1)
        (goodLines ++ badLine :: restLines) u0 [] =
      .error (.missingGlyph ch,
        goodLines.map fun l => [row_placements_of gly cmap L aX l]) := by
  have h := main_parts_error_acc gly cmap L aX ch badLine restLines hbad
    goodLines hgood u0 []
  rw [h]
  simp

/-- Claim C8 (amended) witness: digit glyph map, advance 1 over `ℤ`,
run length 1, one clean row `"11"` followed by the failing row `"1#"`:
the run fails with the error for `'#'` and exactly one part artifact,
the one for the clean row. -/
theorem C8_missing_glyph_aborts_part_witness :
    main_parts digit_glyphs
        (cmap_of ((build_digit_string_cells_map digit_glyphs (1 : ℤ) 1).getD []))
        1 (1 : ℤ) (some 1) ([['1', '1']].length + 1)
        ([['1', '1']] ++ ['1', '#'] :: []) (fun _ => 0) [] =
      .error (.missingGlyph '#',
        [['1', '1']].map fun l =>
          [row_placements_of digit_glyphs
            (cmap_of ((build_digit_string_cells_map digit_glyphs (1 : ℤ) 1).getD []))
            1 (1 : ℤ) l]) := by
  apply C8_missing_glyph_aborts_part
  · intro l hl u cc dc
    rw [List.mem_singleton] at hl
    subst hl
    exact ⟨_, rfl, rfl⟩
  · intro u cc dc
    rfl

lemma loop_usage_indep [CommSemiring A] (gly : Char → Option α)
    (cmap : List Char → Option β) (L : Nat) (aX : A) :
    ∀ (fuel : Nat) (s : List Char) (st1 st2 : RowSt A α β),
      st1.usage = st2.usage →
      (row_to_cell_loop gly cmap L aX fuel st1 s).map RowSt.usage =
        (row_to_cell_loop gly cmap L aX fuel st2 s).map RowSt.usage := by
  intro fuel
  induction fuel with
  | zero =>
    intro s st1 st2 hu
    cases s with
    | nil => simp only [row_to_cell_loop, Except.map, hu]
    | cons ch rest => simp only [row_to_cell_loop, Except.map]
  | succ fuel ih =>
    intro s st1 st2 hu
    cases s with
    | nil => simp only [row_to_cell_loop, Except.map, hu]
    | cons ch rest =>
      cases hc : cmap ((ch :: rest).take L) with
      | some mc =>
        simp only [row_to_cell_loop, hc]
        apply ih
        simp only [hu]
      | none =>
        simp only [row_to_cell_loop, hc]
        by_cases hsp : ch = ' '
        · subst hsp
          rw [if_pos rfl, if_pos rfl]
          apply ih
          simp only [hu]
        · rw [if_neg hsp, if_neg hsp]
          cases hg : gly ch with
          | none => simp only [hg]
          | some gcell =>
            simp only [hg]
            apply ih
            simp only [hu]

lemma usageSum_bump (L : Nat) (u : List Char → Nat) (i0 : Nat)
    (hi : i0 < 10 ^ L) :
    usageSum L (bump u (py_zero_pad_str L i0)) = usageSum L u + 1 := by
  rw [usageSum, usageSum]
  have hcongr : ∀ i ∈ Finset.range (10 ^ L),
      bump u (py_zero_pad_str L i0) (py_zero_pad_str L i) =
        u (py_zero_pad_str L i) + (if i = i0 then 1 else 0) := by
    intro i _
    rw [bump]
    by_cases he : i = i0
    · subst he
      rw [if_pos rfl, if_pos rfl]
    · rw [if_neg (fun hp => he (py_zero_pad_str_injective L i i0 hp)),
        if_neg he, Nat.add_zero]
  rw [Finset.sum_congr rfl hcongr, Finset.sum_add_distrib,
    Finset.sum_ite_eq' (Finset.range (10 ^ L)) i0 (fun _ => 1),
    if_pos (Finset.mem_range.mpr hi)]

lemma loop_usage_sum [CommSemiring A] (g : Char → Option α) (aX : A)
    (L : Nat) (m : List (List Char × List (Placement A α)))
    (hm : build_digit_string_cells_map g aX L = some m) :
    ∀ (fuel : Nat) (st : RowSt A α (List (Placement A α))) (s : List Char)
      (st' : RowSt A α (List (Placement A α))),
      row_to_cell_loop g (cmap_of m) L aX fuel st s = .ok st' →
      L * usageSum L st'.usage =
        L * usageSum L st.usage + dict_matched_chars (cmap_of m) L fuel s := by
  intro fuel
  induction fuel with
  | zero =>
    intro st s st' h
    cases s with
    | nil =>
      rw [row_to_cell_loop] at h
      injection h with h
      subst h
      rw [dict_matched_chars]
      omega
    | cons ch rest =>
      rw [row_to_cell_loop] at h
      exact Except.noConfusion h
  | succ fuel ih =>
    intro st s st' h
    cases s with
    | nil =>
      rw [row_to_cell_loop] at h
      injection h with h
      subst h
      rw [dict_matched_chars]
      omega
    | cons ch rest =>
      cases hc : cmap_of m ((ch :: rest).take L) with
      | some mc =>
        simp only [row_to_cell_loop, hc] at h
        have hc2 : dict_get ((ch :: rest).take L) m = some mc := hc
        obtain ⟨i, hi, hkey⟩ :=
          build_lookup_pad g aX L m hm ((ch :: rest).take L) mc hc2
        have hdmc : dict_matched_chars (cmap_of m) L (fuel + 1) (ch :: rest) =
            L + dict_matched_chars (cmap_of m) L fuel ((ch :: rest).drop L) := by
          simp only [dict_matched_chars, hc]
        have hsum0 := ih _ _ _ h
        dsimp only at hsum0
        have hb : usageSum L (bump st.usage ((ch :: rest).take L)) =
            usageSum L st.usage + 1 := by
          rw [hkey]
          exact usageSum_bump L st.usage i hi
        rw [hdmc, hsum0, hb]
        ring
      | none =>
        have hdmc : dict_matched_chars (cmap_of m) L (fuel + 1) (ch :: rest) =
            dict_matched_chars (cmap_of m) L fuel rest := by
          simp only [dict_matched_chars, hc]
        simp only [row_to_cell_loop, hc] at h
        rw [hdmc]
        by_cases hsp : ch = ' '
        · subst hsp
          rw [if_pos rfl] at h
          have hsum0 := ih _ _ _ h
          dsimp only at hsum0
          exact hsum0
        · rw [if_neg hsp] at h
          cases hg : g ch with
          | none =>
            simp only [hg] at h
            exact Except.noConfusion h
          | some gcell =>
            simp only [hg] at h
            have hsum0 := ih _ _ _ h
            dsimp only at hsum0
            exact hsum0

lemma stream_rows_usage [CommSemiring A] (g : Char → Option α) (aX : A)
    (L : Nat) (m : List (List Char × List (Placement A α)))
    (hm : build_digit_string_cells_map g aX L = some m) (limit : Option Nat) :
    ∀ (lines : List (List Char)) (row : Nat) (u : List Char → Nat)
      (cc dc : Nat)
      (arts : List (List (RowPlacement A α (List (Placement A α)))))
      (res : StreamResult A α (List (Placement A α))),
      stream_rows g (cmap_of m) L aX limit lines row u cc dc arts = .ok res →
      ∃ k, res.remaining = lines.drop k ∧
        res.usage = usage_fold g (cmap_of m) L aX u (lines.take k) ∧
        L * usageSum L res.usage = L * usageSum L u +
          ((lines.take k).map fun l =>
            dict_matched_chars (cmap_of m) L
              (strip_trailing_newline l).length
              (strip_trailing_newline l)).sum ∧
        (res.eof = true → k = lines.length) := by
  intro lines
  induction lines with
  | nil =>
    intro row u cc dc arts res h
    rw [stream_rows] at h
    injection h with h
    subst h
    exact ⟨0, rfl, rfl, by simp, fun _ => rfl⟩
  | cons line rest ih =>
    intro row u cc dc arts res h
    rw [stream_rows] at h
    cases hrow : row_to_cell g (cmap_of m) L aX u cc dc
        (strip_trailing_newline line) with
    | error e =>
      rw [hrow] at h
      exact Except.noConfusion h
    | ok st =>
      simp only [hrow] at h
      have hind2 : (row_to_cell g (cmap_of m) L aX u cc dc
            (strip_trailing_newline line)).map RowSt.usage =
          (row_to_cell g (cmap_of m) L aX u 0 0
            (strip_trailing_newline line)).map RowSt.usage :=
        loop_usage_indep g (cmap_of m) L aX
          (strip_trailing_newline line).length
          (strip_trailing_newline line) _ _ rfl
      have husage : st.usage = usage_after_row g (cmap_of m) L aX u line := by
        rw [usage_after_row]
        cases hrow0 : row_to_cell g (cmap_of m) L aX u 0 0
            (strip_trailing_newline line) with
        | error e =>
          rw [hrow, hrow0] at hind2
          exact absurd hind2 (by simp [Except.map])
        | ok st2 =>
          rw [hrow, hrow0] at hind2
          simp only [Except.map, Except.ok.injEq] at hind2
          exact hind2
      have hrowL : row_to_cell_loop g (cmap_of m) L aX
          (strip_trailing_newline line).length
          { placements := [], xx := 0, cell_count := cc, digit_count := dc,
            usage := u } (strip_trailing_newline line) = .ok st := hrow
      have hsum := loop_usage_sum g aX L m hm
        (strip_trailing_newline line).length _ _ _ hrowL
      dsimp only at hsum
      cases hlim : limit_reached limit (row + 1) with
      | true =>
        rw [hlim] at h
        rw [if_pos rfl] at h
        injection h with h
        subst h
        refine ⟨1, rfl, ?_, ?_, ?_⟩
        · exact husage
        · show L * usageSum L st.usage = _
          rw [hsum]
          simp
        · intro he
          exact absurd he (by simp)
      | false =>
        rw [hlim] at h
        rw [if_neg (by simp)] at h
        obtain ⟨k2, hrem, hus, hsum2, heof⟩ :=
          ih (row + 1) st.usage st.cell_count st.digit_count _ res h
        refine ⟨k2 + 1, ?_, ?_, ?_, ?_⟩
        · rw [hrem]
          rfl
        · rw [hus, husage]
          rfl
        · rw [hsum2, hsum]
          have hmap : (((line :: rest).take (k2 + 1)).map fun l =>
              dict_matched_chars (cmap_of m) L
                (strip_trailing_newline l).length
                (strip_trailing_newline l)) =
              dict_matched_chars (cmap_of m) L
                  (strip_trailing_newline line).length
                  (strip_trailing_newline line) ::
                ((rest.take k2).map fun l =>
                  dict_matched_chars (cmap_of m) L
                    (strip_trailing_newline l).length
                    (strip_trailing_newline l)) := rfl
          rw [hmap, List.sum_cons, Nat.add_assoc]
        · intro he
          rw [heof he]
          rfl

lemma main_parts_usage [CommSemiring A] (g : Char → Option α) (aX : A)
    (L : Nat) (m : List (List Char × List (Placement A α)))
    (hm : build_digit_string_cells_map g aX L = some m)
    (rpf : Option Nat) :
    ∀ (fuel : Nat) (lines : List (List Char)) (u : List Char → Nat)
      (parts : List (List (List (RowPlacement A α (List (Placement A α))))))
      (partsOut : List (List (List (RowPlacement A α (List (Placement A α))))))
      (uOut : List Char → Nat),
      main_parts g (cmap_of m) L aX rpf fuel lines u parts =
        .ok (partsOut, uOut) →
      uOut = usage_fold g (cmap_of m) L aX u lines ∧
      L * usageSum L uOut = L * usageSum L u +
        (lines.map fun l => dict_matched_chars (cmap_of m) L
          (strip_trailing_newline l).length (strip_trailing_newline l)).sum := by
  intro fuel
  induction fuel with
  | zero =>
    intro lines u parts partsOut uOut h
    rw [main_parts] at h
    exact Except.noConfusion h
  | succ fuel ih =>
    intro lines u parts partsOut uOut h
    rw [main_parts] at h
    cases hstream : stream_rows g (cmap_of m) L aX rpf lines 0 u 0 0 [] with
    | error e =>
      rw [hstream] at h
      exact Except.noConfusion h
    | ok res =>
      simp only [hstream] at h
      obtain ⟨k, hrem, hus, hsum, heof⟩ :=
        stream_rows_usage g aX L m hm rpf lines 0 u 0 0 [] res hstream
      cases hres : res.eof with
      | true =>
        rw [hres] at h
        rw [if_pos rfl] at h
        injection h with h
        injection h with h1 h2
        have hk := heof hres
        subst hk
        rw [List.take_length] at hus hsum
        constructor
        · rw [← h2, hus]
        · rw [← h2, hsum]
      | false =>
        rw [hres] at h
        rw [if_neg (by simp)] at h
        obtain ⟨ih1, ih2⟩ := ih _ _ _ _ _ h
        constructor
        · rw [ih1, hrem, hus]
          rw [usage_fold, usage_fold, usage_fold, ← List.foldl_append,
            List.take_append_drop]
        · rw [ih2, hrem, hsum]
          have hsplit : (lines.map fun l => dict_matched_chars (cmap_of m) L
              (strip_trailing_newline l).length
              (strip_trailing_newline l)).sum =
              ((lines.take k).map fun l => dict_matched_chars (cmap_of m) L
                (strip_trailing_newline l).length
                (strip_trailing_newline l)).sum +
              ((lines.drop k).map fun l => dict_matched_chars (cmap_of m) L
                (strip_trailing_newline l).length
                (strip_trailing_newline l)).sum := by
            rw [← List.sum_append, ← List.map_append, List.take_append_drop]
          rw [hsplit, Nat.add_assoc]

lemma usageSum_zero (L : Nat) : usageSum L (fun _ => 0) = 0 := by
  rw [usageSum]
  exact Finset.sum_const_zero

/-- Claim C9: the usage mapping is one mapping threaded through the
whole run and never reset at part boundaries — however the input is
split into parts, the final mapping equals the row-by-row fold over all
input lines, and `L` times the total of its counts over all dictionary
keys equals the total number of input characters consumed through
dictionary matches; moreover each successful match is one loop step
that increments exactly the matched key by one and leaves every other
key unchanged. -/
theorem C9_usage_accounting [CommSemiring A] (g : Char → Option α) (aX : A)
    (L : Nat) (m : List (List Char × List (Placement A α)))
    (hm : build_digit_string_cells_map g aX L = some m) :
    (∀ (rpf : Option Nat) (fuel : Nat) (lines : List (List Char))
        (partsOut : List (List (List (RowPlacement A α (List (Placement A α))))))
        (uOut : List Char → Nat),
      main_parts g (cmap_of m) L aX rpf fuel lines (fun _ => 0) [] =
        .ok (partsOut, uOut) →
      uOut = usage_fold g (cmap_of m) L aX (fun _ => 0) lines ∧
      L * usageSum L uOut =
        (lines.map fun l => dict_matched_chars (cmap_of m) L
          (strip_trailing_newline l).length (strip_trailing_newline l)).sum) ∧
    (∀ (fuel : Nat) (st : RowSt A α (List (Placement A α))) (ch : Char)
        (rest : List Char) (mc : List (Placement A α)),
      cmap_of m ((ch :: rest).take L) = some mc →
      ∃ st1, row_to_cell_loop g (cmap_of m) L aX (fuel + 1) st (ch :: rest) =
          row_to_cell_loop g (cmap_of m) L aX fuel st1 ((ch :: rest).drop L) ∧
        st1.usage ((ch :: rest).take L) =
          st.usage ((ch :: rest).take L) + 1 ∧
        ∀ k2, k2 ≠ (ch :: rest).take L → st1.usage k2 = st.usage k2) := by
  constructor
  · intro rpf fuel lines partsOut uOut hrun
    obtain ⟨h1, h2⟩ := main_parts_usage g aX L m hm rpf fuel lines
      (fun _ => 0) [] partsOut uOut hrun
    refine ⟨h1, ?_⟩
    rw [h2, usageSum_zero]
    simp
  · intro fuel st ch rest mc hc
    refine ⟨{ placements := st.placements ++ [⟨RowRef.combined mc, (st.xx, 0)⟩],
              xx := st.xx + aX * (L : A),
              cell_count := st.cell_count + 1,
              digit_count := st.digit_count + L,
              usage := bump st.usage ((ch :: rest).take L) }, ?_, ?_, ?_⟩
    · simp only [row_to_cell_loop, hc]
    · show bump st.usage ((ch :: rest).take L) ((ch :: rest).take L) = _
      rw [bump, if_pos rfl]
    · intro k2 hk2
      show bump st.usage ((ch :: rest).take L) k2 = _
      rw [bump, if_neg hk2]

/-- Claim C9 witness: digit glyph map, advance 1 over `ℤ`, run length
1, two input rows `"12"` and `"1 "` streamed one row per part (three
parts), plus one concrete match step on row `"12"`. -/
theorem C9_usage_accounting_witness :
    ∃ (partsOut : List (List (List (RowPlacement ℤ Char (List (Placement ℤ Char))))))
      (uOut : List Char → Nat) (mc : List (Placement ℤ Char))
      (st1 : RowSt ℤ Char (List (Placement ℤ Char))),
      main_parts digit_glyphs
          (cmap_of ((build_digit_string_cells_map digit_glyphs (1 : ℤ) 1).getD []))
          1 (1 : ℤ) (some 1) 3 [['1', '2'], ['1', ' ']] (fun _ => 0) [] =
        .ok (partsOut, uOut) ∧
      (uOut = usage_fold digit_glyphs
          (cmap_of ((build_digit_string_cells_map digit_glyphs (1 : ℤ) 1).getD []))
          1 (1 : ℤ) (fun _ => 0) [['1', '2'], ['1', ' ']] ∧
        1 * usageSum 1 uOut =
          ([['1', '2'], ['1', ' ']].map fun l =>
            dict_matched_chars
              (cmap_of ((build_digit_string_cells_map digit_glyphs (1 : ℤ) 1).getD []))
              1 (strip_trailing_newline l).length
              (strip_trailing_newline l)).sum) ∧
      cmap_of ((build_digit_string_cells_map digit_glyphs (1 : ℤ) 1).getD [])
          (('1' :: ['2']).take 1) = some mc ∧
      (row_to_cell_loop digit_glyphs
          (cmap_of ((build_digit_string_cells_map digit_glyphs (1 : ℤ) 1).getD []))
          1 (1 : ℤ) (1 + 1)
          { placements := [], xx := 0, cell_count := 0, digit_count := 0,
            usage := fun _ => 0 } ('1' :: ['2']) =
        row_to_cell_loop digit_glyphs
          (cmap_of ((build_digit_string_cells_map digit_glyphs (1 : ℤ) 1).getD []))
          1 (1 : ℤ) 1 st1 (('1' :: ['2']).drop 1) ∧
        st1.usage (('1' :: ['2']).take 1) =
          (fun _ => (0 : Nat)) (('1' :: ['2']).take 1) + 1 ∧
        ∀ k2, k2 ≠ ('1' :: ['2']).take 1 →
          st1.usage k2 = (fun _ => (0 : Nat)) k2) := by
  have hmain := C9_usage_accounting digit_glyphs (1 : ℤ) 1
    ((build_digit_string_cells_map digit_glyphs (1 : ℤ) 1).getD []) rfl
  obtain ⟨st1, hstep⟩ := hmain.2 1
    { placements := [], xx := 0, cell_count := 0, digit_count := 0,
      usage := fun _ => 0 } '1' ['2'] _ rfl
  exact ⟨_, _, _, st1, rfl, hmain.1 (some 1) 3 _ _ _ rfl, rfl, hstep⟩
